import Mathlib

/-!
Verification development for the Pinloop loop-contact-probability engine
(`pinloop.py`): per-chromosome partitioning, anchor binning through a
lower-bound search over position arrays, two-dimensional range-scatter
accumulation of loop counts, row normalization with zero-division handling,
and the final pair-table annotation.

Conventions of the embedding:
- genomic positions, loop counts and probabilities are rationals (`ℚ`);
  element centers are `(start + end) / 2` and may be half-integral;
- dataframes become lists of records; all per-chromosome frames are
  re-indexed from 0 (the source calls `reset_index(drop=True)` before use,
  so `df.index[0] = 0` and `df.index = range(len(df))`);
- `np.searchsorted` (side `left`) is the textual binary search that numpy
  performs, written with an explicit fuel argument (`a.length + 1` steps
  always suffice because `hi - lo` strictly decreases);
- fallible steps (`np.max` of an empty sequence, pandas `.loc` key lookup)
  return `Except String`.
-/

namespace Pinloop

/-- One record of the ChIA-PET loop catalog (`ChIA-PET_final.tsv`). -/
structure LoopRec where
  chr : String
  center1 : ℚ
  center2 : ℚ
  loop_length : ℚ
  count : ℚ
deriving DecidableEq

/-- One row of `genes_on_chr`: the de-duplicated gene columns of the pair table. -/
structure GeneRec where
  geneEnsemblID : String
  geneSymbol : String
  geneTSS : ℚ
deriving DecidableEq

/-- One row of `elements_on_chr`: the de-duplicated element columns of the pair table. -/
structure ElemRec where
  elementName : String
  elementStart : ℚ
  elementEnd : ℚ
deriving DecidableEq

/-- One row of the input pair table (`pair_info`). -/
structure PairRow where
  elementChr : String
  elementStart : ℚ
  elementEnd : ℚ
  elementName : String
  geneEnsemblID : String
  geneSymbol : String
  geneTSS : ℚ
deriving DecidableEq

/-- A loop record augmented with the four bin indices that `alloc_pinloop`
assigns (`df_chiapet.assign(atac_start=0, atac_end=0, rnaseq_start=0, rnaseq_end=0)`). -/
structure AllocLoop extends LoopRec where
  atac_start : ℕ
  atac_end : ℕ
  rnaseq_start : ℕ
  rnaseq_end : ℕ
deriving DecidableEq

/-- Source: `df_atac["center"] = (df_atac["ElementStart"] + df_atac["ElementEnd"]) / 2`. -/
def center (e : ElemRec) : ℚ := (e.elementStart + e.elementEnd) / 2

/-- The binary search that `np.searchsorted(a, v)` (side `left`) performs:
maintain `lo ≤ hi`, probe `mid = (lo + hi) / 2`, move `lo` past `mid` when
`a[mid] < v`, otherwise move `hi` down to `mid`.  The extra `fuel` argument
only bounds the recursion; `a.length + 1` steps are always enough. -/
def lbAux (a : List ℚ) (v : ℚ) : ℕ → ℕ → ℕ → ℕ
  | 0, lo, _ => lo
  | fuel + 1, lo, hi =>
    if lo < hi then
      if a.getD ((lo + hi) / 2) 0 < v then lbAux a v fuel ((lo + hi) / 2 + 1) hi
      else lbAux a v fuel lo ((lo + hi) / 2)
    else lo

/-- Source: `np.searchsorted(a, v)` with the default side `left`. -/
def searchsorted (a : List ℚ) (v : ℚ) : ℕ := lbAux a v (a.length + 1) 0 a.length

/-- The four bin indices `alloc_pinloop` computes for one loop.  Each guarded
block of the source (`if len(df_atac.index) != 0:` / `if len(df_rna.index) != 0:`)
overwrites the corresponding pair of columns, which were initialized to 0 by
`assign`; `df.index[0] = 0` after `reset_index`. -/
def allocOne (df_rna : List GeneRec) (df_atac : List ElemRec) (l : LoopRec) : AllocLoop :=
  { toLoopRec := l
    atac_start := if df_atac.length ≠ 0 then searchsorted (df_atac.map center) l.center1 else 0
    atac_end := if df_atac.length ≠ 0 then searchsorted (df_atac.map center) l.center2 else 0
    rnaseq_start := if df_rna.length ≠ 0 then searchsorted (df_rna.map (·.geneTSS)) l.center1 else 0
    rnaseq_end := if df_rna.length ≠ 0 then searchsorted (df_rna.map (·.geneTSS)) l.center2 else 0 }

/-- Source: `alloc_pinloop(df_rna, df_atac, df_chiapet)` with the default
`loc_keys = ["GeneTSS", "center"]`. -/
def alloc_pinloop (df_rna : List GeneRec) (df_atac : List ElemRec) (df_chiapet : List LoopRec) :
    List AllocLoop :=
  df_chiapet.map (allocOne df_rna df_atac)

/-- Source: `np.max` as a reduction: it raises on an empty sequence. -/
def npMax : List ℕ → Except String ℕ
  | [] => Except.error ("zero-size array to reduction operation maximum which has no identity")
  | x :: xs => Except.ok (xs.foldl Nat.max x)

/-- Lookup in `dict(zip(keys, vals))`: with duplicate keys the last binding
wins, hence the lookup over the reversed association list. -/
def dictGet (keys : List ℕ) (vals : List ℕ) (k : ℕ) : Option ℕ :=
  ((keys.zip vals).reverse).lookup k

/-- Source: `dict(zip(np.append(ids, np.max(ids)+1), np.arange(len(ids)+1)))`, the
rank dictionary built (twice) at the top of `p_inloop_dense`. -/
def mkRankDict (ids : List ℕ) : Except String (ℕ → Option ℕ) :=
  (npMax ids).map (fun m => dictGet (ids ++ [m + 1]) (List.range (ids.length + 1)))

/-- Membership of index `i` in the Python slice `a[lo:hi]` of an array of
length `len`; a `none` bound is an omitted bound (`a[None:None]` is `a[:]`). -/
def sliceMem (lo hi : Option ℕ) (len i : ℕ) : Bool :=
  decide (lo.getD 0 ≤ i) && decide (i < min (hi.getD len) len)

/-- The accumulation loop of `p_inloop_dense`: starting from
`np.zeros(len(prm_ids))` and `np.zeros((len(prm_ids), len(enh_ids)))`, each
loop record adds its `count` to `prm_inloop[prm_start:prm_end]` and to
`p_inloop[prm_start:prm_end, enh_start:enh_end]`, the slice bounds being the
rank-dictionary translations of the four bin indices. -/
def denseAccum (pd ed : ℕ → Option ℕ) (G E : ℕ) : List AllocLoop → ((ℕ → ℚ) × (ℕ → ℕ → ℚ))
  | [] => (fun _ => 0, fun _ _ => 0)
  | a :: rest =>
    let TP := denseAccum pd ed G E rest
    (fun g => if sliceMem (pd a.rnaseq_start) (pd a.rnaseq_end) G g then TP.1 g + a.count else TP.1 g,
     fun g e =>
       if sliceMem (pd a.rnaseq_start) (pd a.rnaseq_end) G g
           && sliceMem (ed a.atac_start) (ed a.atac_end) E e then
         TP.2 g e + a.count
       else TP.2 g e)

/-- Source: `np.divide(p_inloop, prm_inloop[:, None], out=np.zeros_like(p_inloop),
where=prm_inloop[:, None] != 0)`: rows whose total is nonzero are divided by
that total, the remaining rows keep the zeros of `out`. -/
def normalizeRows (T : ℕ → ℚ) (P : ℕ → ℕ → ℚ) : ℕ → ℕ → ℚ :=
  fun g e => if T g ≠ 0 then P g e / T g else 0

/-- The pre-normalization state of `p_inloop_dense`: both rank dictionaries
(in source order, so an empty `prm_ids` raises first) and then the
accumulated `(prm_inloop, p_inloop)` pair. -/
def denseTP (prm_ids enh_ids : List ℕ) (loops : List AllocLoop) :
    Except String ((ℕ → ℚ) × (ℕ → ℕ → ℚ)) :=
  match mkRankDict prm_ids, mkRankDict enh_ids with
  | Except.ok pd, Except.ok ed => Except.ok (denseAccum pd ed prm_ids.length enh_ids.length loops)
  | Except.error e, _ => Except.error e
  | Except.ok _, Except.error e => Except.error e

/-- Source: `p_inloop_dense(prm_ids, enh_ids, df_chiapet)`: accumulation followed by
the normalizing `np.divide`. -/
def p_inloop_dense (prm_ids enh_ids : List ℕ) (loops : List AllocLoop) :
    Except String (ℕ → ℕ → ℚ) :=
  (denseTP prm_ids enh_ids loops).map (fun TP => normalizeRows TP.1 TP.2)

/-- Helper for `firstDedup`, carrying the set of values already emitted. -/
def firstDedupAux {α : Type} [DecidableEq α] (seen : List α) : List α → List α
  | [] => []
  | a :: l => if a ∈ seen then firstDedupAux seen l else a :: firstDedupAux (a :: seen) l

/-- Source: `drop_duplicates()` / `unique()`: keep the first occurrence of each value,
in order of appearance. -/
def firstDedup {α : Type} [DecidableEq α] (l : List α) : List α :=
  firstDedupAux [] l

/-- Source: `pair_info.loc[pair_info["ElementChr"] == chrm, :]`. -/
def pairsOnChr (table : List PairRow) (c : String) : List PairRow :=
  table.filter (fun r => decide (r.elementChr = c))

/-- Source: `pairs_on_chr[["GeneEnsemblID", "GeneSymbol", "GeneTSS"]].drop_duplicates().reset_index(drop=True)`. -/
def genesOnChr (table : List PairRow) (c : String) : List GeneRec :=
  firstDedup ((pairsOnChr table c).map (fun r => ⟨r.geneEnsemblID, r.geneSymbol, r.geneTSS⟩))

/-- Source: `pairs_on_chr[["ElementName", "ElementStart", "ElementEnd"]].drop_duplicates().reset_index(drop=True)`. -/
def elementsOnChr (table : List PairRow) (c : String) : List ElemRec :=
  firstDedup ((pairsOnChr table c).map (fun r => ⟨r.elementName, r.elementStart, r.elementEnd⟩))

/-- Source: `chiapet.loc[chiapet["chr"] == chrm]` followed by
`chiapet_on_chr.loc[chiapet_on_chr["loop_length"] < 1e6]`. -/
def filteredLoops (chiapet : List LoopRec) (c : String) : List LoopRec :=
  (chiapet.filter (fun l => decide (l.chr = c))).filter (fun l => decide (l.loop_length < 1000000))

/-- One chromosome's normalized contact matrix, indexed (gene rank, element
rank): `p_inloop_dense(genes_on_chr.index, elements_on_chr.index, alloc_loops)`
where `alloc_loops = alloc_pinloop(genes_on_chr, elements_on_chr, <filtered loops>)`. -/
def chromPinloopMatrix (table : List PairRow) (chiapet : List LoopRec) (c : String) :
    Except String (ℕ → ℕ → ℚ) :=
  p_inloop_dense (List.range (genesOnChr table c).length)
    (List.range (elementsOnChr table c).length)
    (alloc_pinloop (genesOnChr table c) (elementsOnChr table c) (filteredLoops chiapet c))

/-- All positions of a label in a pandas index, in order: label-based `.loc`
selection resolves a scalar label to every occurrence, not just the first. -/
def labelPositions {α : Type} [DecidableEq α] : List α → α → List ℕ
  | [], _ => []
  | a :: l, x =>
    if a = x then 0 :: (labelPositions l x).map (· + 1)
    else (labelPositions l x).map (· + 1)

/-- Source: `lookup.loc[r, c]` on `pd.DataFrame(data, index=rowNames,
columns=colNames)` followed by the scalar assignment into the float `Pinloop`
column.  A missing row or column label is a `KeyError`.  When both labels are
unique the selection is the scalar `data[i][j]`.  A duplicated label makes
`.loc` return every matching occurrence (a Series rather than a scalar), and
the subsequent assignment of that non-scalar into the float column fails —
modeled as an error. -/
def locLookup (rowNames colNames : List String) (data : ℕ → ℕ → ℚ) (r c : String) :
    Except String ℚ :=
  match labelPositions rowNames r with
  | [] => Except.error ("KeyError")
  | [i] =>
    match labelPositions colNames c with
    | [] => Except.error ("KeyError")
    | [j] => Except.ok (data i j)
    | _ => Except.error ("setting an array element with a sequence")
  | _ =>
    match labelPositions colNames c with
    | [] => Except.error ("KeyError")
    | _ => Except.error ("setting an array element with a sequence")

/-- Evaluate a fallible function over a list, failing at the first error, as
the list comprehension of lookups does. -/
def exceptMap {α β : Type} (f : α → Except String β) : List α → Except String (List β)
  | [] => Except.ok []
  | a :: l =>
    match f a with
    | Except.error e => Except.error e
    | Except.ok b => (exceptMap f l).map (fun bs => b :: bs)

/-- The per-row effect of `pair_info.loc[pairs_on_chr.index, "Pinloop"] =
[lookup.loc[r, c] for r, c in zip(...)]`: a row on the current chromosome
receives its looked-up value (the lookup table's data is the transposed
matrix, `p_inloop_dense(...).T`), any other row is left as it is. -/
def annotateRow (table : List PairRow) (M : ℕ → ℕ → ℚ) (c : String) (p : PairRow × ℚ) :
    Except String (PairRow × ℚ) :=
  if p.1.elementChr = c then
    (locLookup ((elementsOnChr table c).map (·.elementName))
      ((genesOnChr table c).map (·.geneEnsemblID))
      (fun i j => M j i) p.1.elementName p.1.geneEnsemblID).map (fun v => (p.1, v))
  else Except.ok p

/-- One iteration of the module-level `for chrm in pair_info["ElementChr"].unique():`
loop: build the chromosome's matrix, then write the looked-up values into the
`Pinloop` column of the matching rows. -/
def processChrom (table : List PairRow) (chiapet : List LoopRec) (c : String)
    (st : List (PairRow × ℚ)) : Except String (List (PairRow × ℚ)) :=
  match chromPinloopMatrix table chiapet c with
  | Except.error e => Except.error e
  | Except.ok M => exceptMap (annotateRow table M c) st

/-- The module-level chromosome loop, threading the mutable `pair_info` state. -/
def foldChroms (table : List PairRow) (chiapet : List LoopRec) :
    List String → List (PairRow × ℚ) → Except String (List (PairRow × ℚ))
  | [], st => Except.ok st
  | c :: cs, st =>
    match processChrom table chiapet c st with
    | Except.error e => Except.error e
    | Except.ok st' => foldChroms table chiapet cs st'

/-- The whole pipeline on an in-memory pair table: `pair_info["Pinloop"] = 0.0`,
then the per-chromosome loop over `pair_info["ElementChr"].unique()`.  The
result pairs every input row with its final `Pinloop` value. -/
def runPipeline (table : List PairRow) (chiapet : List LoopRec) :
    Except String (List (PairRow × ℚ)) :=
  foldChroms table chiapet (firstDedup (table.map (·.elementChr)))
    (table.map (fun r => (r, (0 : ℚ))))

/-! ### Concrete inputs used by counterexamples and witnesses -/

/-- Genes of the spec's concrete scenario: TSS positions 100, 500, 900. -/
def C1genes : List GeneRec :=
  [⟨"ENSG0001", "G1", 100⟩, ⟨"ENSG0002", "G2", 500⟩, ⟨"ENSG0003", "G3", 900⟩]

/-- Elements of the spec's concrete scenario: centers 50, 600, 1000. -/
def C1elems : List ElemRec :=
  [⟨"elem1", 0, 100⟩, ⟨"elem2", 500, 700⟩, ⟨"elem3", 900, 1100⟩]

/-- The scenario's single loop: anchors 80 and 950, length 870 (passes the
`< 1e6` filter), count 4. -/
def C1loop : LoopRec := ⟨"chr1", 80, 950, 870, 4⟩

/-- The scenario's allocated loops, length filter included. -/
def C1alloc : List AllocLoop :=
  alloc_pinloop C1genes C1elems
    (List.filter (fun l => decide (l.loop_length < 1000000)) [C1loop])

/-- A one-gene chromosome (TSS 100) for the anchor-order claims. -/
def C5genes : List GeneRec := [⟨"ENSG0005", "G5", 100⟩]

/-- A one-element chromosome (center 100) for the anchor-order claims. -/
def C5elems : List ElemRec := [⟨"elem5", 50, 150⟩]

/-- A loop whose anchors are reversed: `center1 = 200 > 50 = center2`. -/
def C5loopRev : LoopRec := ⟨"chr1", 200, 50, 150, 1⟩

/-- The same loop with its anchor coordinates swapped. -/
def C5loopFwd : LoopRec := ⟨"chr1", 50, 200, 150, 1⟩

/-- A pair table whose first-occurrence gene order is 500 then 100: the
derived per-chromosome gene array is not sorted by TSS. -/
def C6table : List PairRow :=
  [⟨"chr1", 0, 100, "elemA", "ENSGX", "GX", 500⟩,
   ⟨"chr1", 200, 300, "elemB", "ENSGY", "GY", 100⟩]

/-- An arbitrary concrete lookup-table payload. -/
def C7data : ℕ → ℕ → ℚ := fun i j => (i : ℚ) + (j : ℚ) + 7

/-- A one-row pair table for the cutoff and frame witnesses. -/
def W3row : PairRow := ⟨"chr1", 0, 100, "elemC", "ENSGC", "GC", 100⟩

/-- Table holding just `W3row`. -/
def W3table : List PairRow := [W3row]

/-- A loop above the cis-distance cutoff (`loop_length = 2,000,000`). -/
def W3big : LoopRec := ⟨"chr1", 0, 2000000, 2000000, 5⟩

/-- Zero gene-total vector, the accumulator for an empty loop list. -/
def W4T : ℕ → ℚ := fun _ => 0

/-- Zero contact matrix, the accumulator for an empty loop list. -/
def W4P : ℕ → ℕ → ℚ := fun _ _ => 0

/-- A one-row pair table for the frame-effect witness. -/
def W9row : PairRow := ⟨"chr1", 0, 100, "elemW", "ENSGW", "GW", 100⟩

/-- Table holding just `W9row`. -/
def W9table : List PairRow := [W9row]

/-- A small loop catalog with a nonnegative count. -/
def W9chia : List LoopRec := [⟨"chr1", 10, 90, 80, 2⟩]

/-- Extract the row list from a successful pipeline run. -/
def runPinOut (table : List PairRow) (chiapet : List LoopRec) : List (PairRow × ℚ) :=
  (runPipeline table chiapet).toOption.getD []

/-- An allocated loop covering the single cell of a 1 × 1 matrix. -/
def W10loop : AllocLoop :=
  { chr := "chr1", center1 := 0, center2 := 100, loop_length := 100, count := 3,
    atac_start := 0, atac_end := 1, rnaseq_start := 0, rnaseq_end := 1 }

/-- Extract the matrix from a successful `p_inloop_dense` run. -/
def exceptFunGetD (x : Except String (ℕ → ℕ → ℚ)) : ℕ → ℕ → ℚ :=
  x.toOption.getD (fun _ _ => 0)

/-- The normalized matrix for `[W10loop]` on a 1 × 1 chromosome. -/
def W10M : ℕ → ℕ → ℚ := exceptFunGetD (p_inloop_dense [0] [0] [W10loop])

/-! ### Properties of the lower-bound search -/

/-- In a `≤`-sorted list, `getD` is monotone below the length. -/
theorem sorted_getD_mono {a : List ℚ} (ha : a.Sorted (· ≤ ·)) {i j : ℕ}
    (hij : i ≤ j) (hj : j < a.length) : a.getD i 0 ≤ a.getD j 0 := by
  rcases Nat.eq_or_lt_of_le hij with rfl | hlt
  · exact le_refl _
  · rw [List.getD_eq_getElem a 0 (lt_trans hlt hj), List.getD_eq_getElem a 0 hj]
    exact List.pairwise_iff_getElem.mp ha i j _ _ hlt

/-- The binary search stays within its bracket. -/
theorem lbAux_bounds (a : List ℚ) (v : ℚ) :
    ∀ fuel lo hi, lo ≤ hi → lo ≤ lbAux a v fuel lo hi ∧ lbAux a v fuel lo hi ≤ hi := by
  intro fuel
  induction fuel with
  | zero => intro lo hi h; exact ⟨le_refl _, h⟩
  | succ n ih =>
    intro lo hi h
    simp only [lbAux]
    by_cases hlh : lo < hi
    · rw [if_pos hlh]
      by_cases hm : a.getD ((lo + hi) / 2) 0 < v
      · rw [if_pos hm]
        have := ih ((lo + hi) / 2 + 1) hi (by omega)
        exact ⟨by omega, this.2⟩
      · rw [if_neg hm]
        have := ih lo ((lo + hi) / 2) (by omega)
        exact ⟨this.1, by omega⟩
    · rw [if_neg hlh]; exact ⟨le_refl _, h⟩

/-- Invariant proof for the binary search: on a sorted list it separates the
strictly-smaller prefix from the `≥ v` suffix. -/
theorem lbAux_spec {a : List ℚ} {v : ℚ} (ha : a.Sorted (· ≤ ·)) :
    ∀ fuel lo hi, hi ≤ a.length → lo ≤ hi → hi - lo ≤ fuel →
    (∀ j, j < lo → a.getD j 0 < v) →
    (∀ j, hi ≤ j → j < a.length → v ≤ a.getD j 0) →
    (∀ j, j < lbAux a v fuel lo hi → a.getD j 0 < v) ∧
    (∀ j, lbAux a v fuel lo hi ≤ j → j < a.length → v ≤ a.getD j 0) := by
  intro fuel
  induction fuel with
  | zero =>
    intro lo hi h1 h2 h3 hlo hhi
    have : lo = hi := by omega
    subst this
    exact ⟨hlo, hhi⟩
  | succ n ih =>
    intro lo hi h1 h2 h3 hlo hhi
    simp only [lbAux]
    by_cases hlh : lo < hi
    · rw [if_pos hlh]
      by_cases hm : a.getD ((lo + hi) / 2) 0 < v
      · rw [if_pos hm]
        apply ih ((lo + hi) / 2 + 1) hi h1 (by omega) (by omega) _ hhi
        intro j hj
        exact lt_of_le_of_lt (sorted_getD_mono ha (by omega) (by omega)) hm
      · rw [if_neg hm]
        apply ih lo ((lo + hi) / 2) (by omega) (by omega) (by omega) hlo
        intro j hj1 hj2
        exact le_trans (not_lt.mp hm) (sorted_getD_mono ha hj1 hj2)
    · rw [if_neg hlh]
      have : lo = hi := by omega
      exact ⟨hlo, fun j hj => hhi j (this ▸ hj)⟩

/-- Source: `searchsorted` never exceeds the list length. -/
theorem searchsorted_le_length (a : List ℚ) (v : ℚ) : searchsorted a v ≤ a.length :=
  (lbAux_bounds a v (a.length + 1) 0 a.length (Nat.zero_le _)).2

/-- On a sorted list, everything before the returned index is `< v` and
everything from it on is `≥ v`. -/
theorem searchsorted_spec {a : List ℚ} (v : ℚ) (ha : a.Sorted (· ≤ ·)) :
    (∀ j, j < searchsorted a v → a.getD j 0 < v) ∧
    (∀ j, searchsorted a v ≤ j → j < a.length → v ≤ a.getD j 0) := by
  apply lbAux_spec ha (a.length + 1) 0 a.length (le_refl _) (Nat.zero_le _) (by omega)
  · intro j hj; omega
  · intro j hj1 hj2; omega

/-- The lower bound is monotone in the query. -/
theorem searchsorted_mono {a : List ℚ} (ha : a.Sorted (· ≤ ·)) {w v : ℚ} (hvw : w ≤ v) :
    searchsorted a w ≤ searchsorted a v := by
  by_contra hcon
  push_neg at hcon
  have hwlen : searchsorted a w ≤ a.length := searchsorted_le_length a w
  have h1 : v ≤ a.getD (searchsorted a v) 0 :=
    (searchsorted_spec v ha).2 _ (le_refl _) (by omega)
  have h2 : a.getD (searchsorted a v) 0 < w := (searchsorted_spec w ha).1 _ hcon
  exact absurd (lt_of_le_of_lt h1 h2) (not_lt.mpr hvw)

/-- C2: for every ascending-sorted sequence of positions and every query, the
Locus Index operation (`np.searchsorted`, side `left`) returns the lowest
index `i` with `sequence[i] ≥ query` — everything before the result is
strictly below the query, everything from the result on is at least the
query — and in particular returns 0 when the query is `≤` every element and
the length when the query exceeds every element. -/
theorem C2_locus_index_lower_bound (a : List ℚ) (v : ℚ) (ha : a.Sorted (· ≤ ·)) :
    searchsorted a v ≤ a.length ∧
    (∀ j, j < searchsorted a v → a.getD j 0 < v) ∧
    (∀ j, searchsorted a v ≤ j → j < a.length → v ≤ a.getD j 0) ∧
    ((∀ x ∈ a, v ≤ x) → searchsorted a v = 0) ∧
    ((∀ x ∈ a, x < v) → searchsorted a v = a.length) := by
  obtain ⟨h1, h2⟩ := searchsorted_spec v ha
  have hb : searchsorted a v ≤ a.length := searchsorted_le_length a v
  refine ⟨hb, h1, h2, ?_, ?_⟩
  · intro hall
    by_contra h0
    have hpos : 0 < searchsorted a v := Nat.pos_of_ne_zero h0
    have hlen : 0 < a.length := lt_of_lt_of_le hpos hb
    have hlt : a.getD 0 0 < v := h1 0 hpos
    have hmem : a.getD 0 0 ∈ a := by
      rw [List.getD_eq_getElem a 0 hlen]; exact List.getElem_mem hlen
    exact absurd (hall _ hmem) (not_le.mpr hlt)
  · intro hall
    by_contra hne
    have hlt : searchsorted a v < a.length := lt_of_le_of_ne hb hne
    have hge : v ≤ a.getD (searchsorted a v) 0 := h2 _ (le_refl _) hlt
    have hmem : a.getD (searchsorted a v) 0 ∈ a := by
      rw [List.getD_eq_getElem a 0 hlt]; exact List.getElem_mem hlt
    exact absurd (hall _ hmem) (not_lt.mpr hge)

/-- Witness for C2 at the sorted list `[1, 2, 3]` with query `2`. -/
theorem C2_locus_index_lower_bound_witness :
    searchsorted [(1 : ℚ), 2, 3] 2 ≤ [(1 : ℚ), 2, 3].length :=
  (C2_locus_index_lower_bound [(1 : ℚ), 2, 3] 2 (by decide)).1

/-! ### The cis-distance cutoff -/

/-- Removing a loop at or above the 1 Mb cutoff does not change any
chromosome's filtered loop list. -/
theorem filteredLoops_erase_big (A B : List LoopRec) (l : LoopRec)
    (hl : (1000000 : ℚ) ≤ l.loop_length) (c : String) :
    filteredLoops (A ++ l :: B) c = filteredLoops (A ++ B) c := by
  have hq : decide (l.loop_length < 1000000) = false := decide_eq_false (not_lt.mpr hl)
  unfold filteredLoops
  rw [List.filter_filter, List.filter_filter, List.filter_append, List.filter_append,
    List.filter_cons]
  simp [hq]

/-- Source: `processChrom` depends on the loop catalog only through `filteredLoops`. -/
theorem processChrom_congr (table : List PairRow) {C₁ C₂ : List LoopRec}
    (h : ∀ c, filteredLoops C₁ c = filteredLoops C₂ c) (c : String)
    (st : List (PairRow × ℚ)) :
    processChrom table C₁ c st = processChrom table C₂ c st := by
  unfold processChrom chromPinloopMatrix
  rw [h c]

/-- Catalog congruence extends through the chromosome loop. -/
theorem foldChroms_congr (table : List PairRow) {C₁ C₂ : List LoopRec}
    (h : ∀ c, filteredLoops C₁ c = filteredLoops C₂ c) :
    ∀ cs st, foldChroms table C₁ cs st = foldChroms table C₂ cs st := by
  intro cs
  induction cs with
  | nil => intro st; rfl
  | cons c cs ih =>
    intro st
    unfold foldChroms
    rw [processChrom_congr table h c st]
    cases processChrom table C₂ c st with
    | error e => rfl
    | ok st' => exact ih st'

/-- C3: a loop with `loop_length ≥ 1,000,000` is excluded before binning and
accumulation — inserting such a loop anywhere in the catalog leaves every
output of the pipeline unchanged. -/
theorem C3_cutoff_excludes (table : List PairRow) (A B : List LoopRec) (l : LoopRec)
    (hl : (1000000 : ℚ) ≤ l.loop_length) :
    runPipeline table (A ++ l :: B) = runPipeline table (A ++ B) := by
  unfold runPipeline
  exact foldChroms_congr table (fun c => filteredLoops_erase_big A B l hl c) _ _

/-! ### Normalization semantics -/

/-- C4: the Contact Matrix Builder's normalization divides row `g` by the
gene total when that total is positive and leaves row `g` all-zero when the
total is zero — a rational value in every case, never undefined. -/
theorem C4_zero_division_guard (prm enh : List ℕ) (loops : List AllocLoop)
    (T : ℕ → ℚ) (P : ℕ → ℕ → ℚ)
    (h : denseTP prm enh loops = Except.ok (T, P)) (g : ℕ) :
    p_inloop_dense prm enh loops = Except.ok (normalizeRows T P) ∧
    (0 < T g → ∀ e, normalizeRows T P g e = P g e / T g) ∧
    (T g = 0 → ∀ e, normalizeRows T P g e = 0) := by
  refine ⟨?_, ?_, ?_⟩
  · unfold p_inloop_dense
    rw [h]
    rfl
  · intro hT e
    unfold normalizeRows
    rw [if_pos (ne_of_gt hT)]
  · intro hT e
    unfold normalizeRows
    rw [if_neg (by simp [hT])]

/-! ### The rank dictionary on a range index -/

/-- Zipping a list with itself pairs every element with itself. -/
theorem zip_self {α : Type} (l : List α) : l.zip l = l.map (fun a => (a, a)) := by
  induction l with
  | nil => rfl
  | cons a t ih => simp [ih]

/-- Association lookup over self-pairs is membership. -/
theorem lookup_map_dup (l : List ℕ) (k : ℕ) :
    List.lookup k (l.map (fun a => (a, a))) = if k ∈ l then some k else none := by
  induction l with
  | nil => simp
  | cons a t ih =>
    simp only [List.map_cons, List.lookup]
    by_cases hk : k = a
    · subst hk
      simp
    · have hne : (k == a) = false := beq_eq_false_iff_ne.mpr hk
      simp [hne, ih, hk, List.mem_cons]

/-- The reversal (last binding wins) is irrelevant for self-pairs. -/
theorem lookup_reverse_map_dup (l : List ℕ) (k : ℕ) :
    List.lookup k ((l.map (fun a => (a, a))).reverse) = if k ∈ l then some k else none := by
  rw [← List.map_reverse, lookup_map_dup]
  simp [List.mem_reverse]

/-- Source: `np.max` over `range (n+1)` is `n`. -/
theorem npMax_append (L : List ℕ) (b a : ℕ) (h : npMax L = Except.ok b) :
    npMax (L ++ [a]) = Except.ok (Nat.max b a) := by
  cases L with
  | nil => cases h
  | cons x xs =>
    simp only [npMax, Except.ok.injEq] at h
    simp only [List.cons_append, npMax, Except.ok.injEq]
    rw [List.foldl_append, h]
    rfl

/-- Source: `np.max(np.arange(n+1)) = n`. -/
theorem npMax_range (n : ℕ) : npMax (List.range (n + 1)) = Except.ok n := by
  induction n with
  | zero => rfl
  | succ m ih =>
    have h : List.range (m + 2) = List.range (m + 1) ++ [m + 1] := List.range_succ (m + 1)
    rw [h, npMax_append _ _ _ ih]
    congr 1
    exact Nat.max_eq_right (Nat.le_succ m)

/-- The rank dictionary of a pandas `RangeIndex` is the identity up to and
including the sentinel `n + 1`. -/
theorem rankDict_range (n : ℕ) :
    mkRankDict (List.range (n + 1)) =
      Except.ok (fun k => if k < n + 2 then some k else none) := by
  unfold mkRankDict
  rw [npMax_range]
  simp only [Except.map]
  congr 1
  funext k
  unfold dictGet
  have hkeys : List.range (n + 1) ++ [n + 1] = List.range (n + 2) :=
    (List.range_succ (n + 1)).symm
  have hlen : (List.range (n + 1)).length + 1 = n + 2 := by
    rw [List.length_range]
  rw [hkeys, hlen, zip_self, lookup_reverse_map_dup]
  simp [List.mem_range]

/-! ### Accumulation lemmas -/

/-- A loop whose gene-axis slice is empty contributes nothing. -/
theorem denseAccum_skip (pd ed : ℕ → Option ℕ) (G E : ℕ) (a : AllocLoop)
    (rest : List AllocLoop)
    (h : ∀ g, sliceMem (pd a.rnaseq_start) (pd a.rnaseq_end) G g = false) :
    denseAccum pd ed G E (a :: rest) = denseAccum pd ed G E rest := by
  have hT : (denseAccum pd ed G E (a :: rest)).1 = (denseAccum pd ed G E rest).1 := by
    funext g
    simp only [denseAccum]
    simp [h g]
  have hP : (denseAccum pd ed G E (a :: rest)).2 = (denseAccum pd ed G E rest).2 := by
    funext g e
    simp only [denseAccum]
    simp [h g]
  calc denseAccum pd ed G E (a :: rest)
      = ((denseAccum pd ed G E (a :: rest)).1, (denseAccum pd ed G E (a :: rest)).2) := rfl
    _ = ((denseAccum pd ed G E rest).1, (denseAccum pd ed G E rest).2) := by rw [hT, hP]
    _ = denseAccum pd ed G E rest := rfl

/-- A loop whose gene-axis slice is empty leaves `denseTP` unchanged. -/
theorem denseTP_skip (prm enh : List ℕ) (a : AllocLoop) (rest : List AllocLoop)
    (h : ∀ pd, mkRankDict prm = Except.ok pd →
      ∀ g, sliceMem (pd a.rnaseq_start) (pd a.rnaseq_end) prm.length g = false) :
    denseTP prm enh (a :: rest) = denseTP prm enh rest := by
  unfold denseTP
  cases hp : mkRankDict prm with
  | error e => rfl
  | ok pd =>
    cases he : mkRankDict enh with
    | error e2 => rfl
    | ok ed =>
      show Except.ok (denseAccum pd ed prm.length enh.length (a :: rest)) =
        Except.ok (denseAccum pd ed prm.length enh.length rest)
      rw [denseAccum_skip pd ed prm.length enh.length a rest (h pd hp)]

/-- C5 (amended): the binner does not reorder the anchor pair.  When the gene
array is sorted and a loop has `center2 ≤ center1`, its gene-axis range
`[lower_bound(center1), lower_bound(center2))` is empty, so the loop
contributes no matrix update and no gene-total update at all: dropping it
from the catalog leaves `p_inloop_dense` unchanged.  (The same loop with its
anchors swapped does contribute — see the counterexample.) -/
theorem C5_reversed_anchor_amended (genes : List GeneRec) (elems : List ElemRec)
    (loops : List LoopRec) (l : LoopRec)
    (hs : (genes.map (·.geneTSS)).Sorted (· ≤ ·)) (hc : l.center2 ≤ l.center1) :
    p_inloop_dense (List.range genes.length) (List.range elems.length)
      (alloc_pinloop genes elems (l :: loops)) =
    p_inloop_dense (List.range genes.length) (List.range elems.length)
      (alloc_pinloop genes elems loops) := by
  unfold p_inloop_dense
  have halloc : alloc_pinloop genes elems (l :: loops) =
      allocOne genes elems l :: alloc_pinloop genes elems loops := rfl
  rw [halloc]
  apply congrArg
  apply denseTP_skip
  intro pd hp g
  cases genes with
  | nil =>
    rw [show (List.range ([] : List GeneRec).length) = ([] : List ℕ) from rfl] at hp
    cases hp
  | cons g0 gs =>
    have hlen : (g0 :: gs).length = gs.length + 1 := rfl
    rw [hlen, rankDict_range gs.length] at hp
    injection hp with hp
    subst hp
    have hne : (g0 :: gs).length ≠ 0 := by simp
    have hrs : (allocOne (g0 :: gs) elems l).rnaseq_start =
        searchsorted ((g0 :: gs).map (·.geneTSS)) l.center1 := by
      simp [allocOne]
    have hre : (allocOne (g0 :: gs) elems l).rnaseq_end =
        searchsorted ((g0 :: gs).map (·.geneTSS)) l.center2 := by
      simp [allocOne]
    set rs := searchsorted ((g0 :: gs).map (·.geneTSS)) l.center1
    set re := searchsorted ((g0 :: gs).map (·.geneTSS)) l.center2
    have hmono : re ≤ rs := searchsorted_mono hs hc
    have hrsb : rs ≤ gs.length + 1 := by
      have := searchsorted_le_length ((g0 :: gs).map (·.geneTSS)) l.center1
      simpa using this
    have hreb : re ≤ gs.length + 1 := by
      have := searchsorted_le_length ((g0 :: gs).map (·.geneTSS)) l.center2
      simpa using this
    rw [hrs, hre]
    rw [show (fun k => if k < gs.length + 2 then some k else none) rs = some rs from by
      simp; omega]
    rw [show (fun k => if k < gs.length + 2 then some k else none) re = some re from by
      simp; omega]
    unfold sliceMem
    simp only [Option.getD_some, List.length_range, hlen]
    by_cases hg : rs ≤ g
    · have : decide (g < min re (gs.length + 1)) = false := decide_eq_false (by omega)
      rw [this, Bool.and_false]
    · have : decide (rs ≤ g) = false := decide_eq_false hg
      rw [this, Bool.false_and]

/-- With nonnegative counts the accumulated totals and cells are nonnegative. -/
theorem denseAccum_nonneg (pd ed : ℕ → Option ℕ) (G E : ℕ) (loops : List AllocLoop)
    (hc : ∀ a ∈ loops, 0 ≤ a.count) :
    (∀ g, 0 ≤ (denseAccum pd ed G E loops).1 g) ∧
    (∀ g e, 0 ≤ (denseAccum pd ed G E loops).2 g e) := by
  induction loops with
  | nil => exact ⟨fun g => le_refl 0, fun g e => le_refl 0⟩
  | cons a rest ih =>
    have ha : 0 ≤ a.count := hc a (List.mem_cons_self a rest)
    have ih' := ih (fun x hx => hc x (List.mem_cons_of_mem a hx))
    constructor
    · intro g
      simp only [denseAccum]
      by_cases hm : sliceMem (pd a.rnaseq_start) (pd a.rnaseq_end) G g = true
      · rw [if_pos hm]; exact add_nonneg (ih'.1 g) ha
      · rw [if_neg hm]; exact ih'.1 g
    · intro g e
      simp only [denseAccum]
      by_cases hm : (sliceMem (pd a.rnaseq_start) (pd a.rnaseq_end) G g
          && sliceMem (ed a.atac_start) (ed a.atac_end) E e) = true
      · rw [if_pos hm]; exact add_nonneg (ih'.2 g e) ha
      · rw [if_neg hm]; exact ih'.2 g e

/-- Every loop that credits cell `(g, e)` also credits total `g`, so with
nonnegative counts each accumulated cell is bounded by its row total. -/
theorem denseAccum_le (pd ed : ℕ → Option ℕ) (G E : ℕ) (loops : List AllocLoop)
    (hc : ∀ a ∈ loops, 0 ≤ a.count) :
    ∀ g e, (denseAccum pd ed G E loops).2 g e ≤ (denseAccum pd ed G E loops).1 g := by
  induction loops with
  | nil => intro g e; exact le_refl 0
  | cons a rest ih =>
    intro g e
    have ha : 0 ≤ a.count := hc a (List.mem_cons_self a rest)
    have ih' := ih (fun x hx => hc x (List.mem_cons_of_mem a hx)) g e
    simp only [denseAccum]
    by_cases h1 : sliceMem (pd a.rnaseq_start) (pd a.rnaseq_end) G g = true
    · rw [if_pos h1]
      by_cases h2 : sliceMem (ed a.atac_start) (ed a.atac_end) E e = true
      · rw [if_pos (by rw [h1, h2]; rfl)]
        exact add_le_add_right ih' a.count
      · have h2f : sliceMem (ed a.atac_start) (ed a.atac_end) E e = false :=
          Bool.not_eq_true _ ▸ eq_false_of_ne_true h2
        rw [if_neg (by rw [h1, h2f]; simp)]
        exact le_trans ih' (le_add_of_nonneg_right ha)
    · have h1f : sliceMem (pd a.rnaseq_start) (pd a.rnaseq_end) G g = false :=
        eq_false_of_ne_true h1
      rw [if_neg h1, if_neg (by rw [h1f]; simp)]
      exact ih'

/-- A successful `p_inloop_dense` run with nonnegative counts yields a matrix
of values in `[0, 1]`. -/
theorem dense_ok_bounds (prm enh : List ℕ) (loops : List AllocLoop) (M : ℕ → ℕ → ℚ)
    (hc : ∀ a ∈ loops, 0 ≤ a.count) (h : p_inloop_dense prm enh loops = Except.ok M) :
    ∀ g e, 0 ≤ M g e ∧ M g e ≤ 1 := by
  unfold p_inloop_dense at h
  cases hTP : denseTP prm enh loops with
  | error e => rw [hTP] at h; cases h
  | ok TP =>
    rw [hTP] at h
    simp only [Except.map] at h
    injection h with h
    subst h
    unfold denseTP at hTP
    cases hp : mkRankDict prm with
    | error e => rw [hp] at hTP; cases hTP
    | ok pd =>
      rw [hp] at hTP
      cases he : mkRankDict enh with
      | error e => rw [he] at hTP; cases hTP
      | ok ed =>
        rw [he] at hTP
        injection hTP with hTP
        subst hTP
        intro g e
        have hn := denseAccum_nonneg pd ed prm.length enh.length loops hc
        have hle := denseAccum_le pd ed prm.length enh.length loops hc g e
        unfold normalizeRows
        by_cases hT : (denseAccum pd ed prm.length enh.length loops).1 g = 0
        · rw [if_neg (by simp [hT])]
          exact ⟨le_refl 0, zero_le_one⟩
        · rw [if_pos hT]
          have hTpos : 0 < (denseAccum pd ed prm.length enh.length loops).1 g :=
            lt_of_le_of_ne (hn.1 g) (Ne.symm hT)
          exact ⟨div_nonneg (hn.2 g e) (le_of_lt hTpos), (div_le_one hTpos).mpr hle⟩

/-- C10: for every loop catalog with nonnegative counts, every normalized
contact-probability value is at most 1, because each accumulation step adds a
loop's count to the gene total whenever it adds it to any cell of that row,
so `P[g, e] ≤ T[g]` holds before normalization. -/
theorem C10_probability_le_one (prm enh : List ℕ) (loops : List AllocLoop)
    (M : ℕ → ℕ → ℚ) (hc : ∀ a ∈ loops, 0 ≤ a.count)
    (h : p_inloop_dense prm enh loops = Except.ok M) :
    ∀ g e, M g e ≤ 1 :=
  fun g e => (dense_ok_bounds prm enh loops M hc h g e).2

/-! ### The pair annotator's label lookup -/

/-- A label has no positions exactly when it is absent. -/
theorem labelPositions_eq_nil_iff {α : Type} [DecidableEq α] (l : List α) (x : α) :
    labelPositions l x = [] ↔ x ∉ l := by
  induction l with
  | nil => simp [labelPositions]
  | cons a t ih =>
    by_cases hx : a = x
    · subst hx
      simp [labelPositions]
    · simp [labelPositions, hx, List.mem_cons, ih, Ne.symm hx]

/-- The number of positions of a label is its multiplicity in the index. -/
theorem labelPositions_length {α : Type} [DecidableEq α] (l : List α) (x : α) :
    (labelPositions l x).length = l.count x := by
  induction l with
  | nil => rfl
  | cons a t ih =>
    by_cases hx : a = x
    · subst hx
      simp [labelPositions, List.count_cons, ih]
    · have hb : (x == a) = false := beq_eq_false_iff_ne.mpr (Ne.symm hx)
      simp [labelPositions, hx, List.count_cons, ih, hb]

/-- A successful scalar lookup comes from unique positions of both labels. -/
theorem locLookup_ok {rows cols : List String} {data : ℕ → ℕ → ℚ} {r c : String}
    {v : ℚ} (h : locLookup rows cols data r c = Except.ok v) :
    ∃ i j, labelPositions rows r = [i] ∧ labelPositions cols c = [j] ∧ v = data i j := by
  unfold locLookup at h
  cases h1 : labelPositions rows r with
  | nil => rw [h1] at h; cases h
  | cons i is =>
    cases is with
    | nil =>
      rw [h1] at h
      cases h2 : labelPositions cols c with
      | nil => rw [h2] at h; cases h
      | cons j js =>
        cases js with
        | nil =>
          rw [h2] at h
          injection h with h
          exact ⟨i, j, rfl, rfl, h.symm⟩
        | cons j2 js2 => rw [h2] at h; cases h
    | cons i2 is2 =>
      rw [h1] at h
      cases h2 : labelPositions cols c with
      | nil => rw [h2] at h; cases h
      | cons j js => rw [h2] at h; cases h

/-- C7 (amended): the Pair Annotator's lookup fails loudly — a row whose
element or gene label is absent from the chromosome's derived index raises a
`KeyError` rather than defaulting — and when both labels occur exactly once
in their indexes it returns the matrix value at those positions without
error.  (A duplicated label instead yields a Series and the scalar
assignment fails — see the counterexample.) -/
theorem C7_missing_locus_lookup (rows cols : List String) (data : ℕ → ℕ → ℚ)
    (r c : String) :
    ((r ∉ rows ∨ c ∉ cols) → locLookup rows cols data r c = Except.error ("KeyError")) ∧
    (rows.count r = 1 → cols.count c = 1 →
      ∃ i j, labelPositions rows r = [i] ∧ labelPositions cols c = [j] ∧
        locLookup rows cols data r c = Except.ok (data i j)) := by
  constructor
  · rintro (h | h)
    · have hn : labelPositions rows r = [] := (labelPositions_eq_nil_iff rows r).mpr h
      unfold locLookup
      rw [hn]
    · have hn : labelPositions cols c = [] := (labelPositions_eq_nil_iff cols c).mpr h
      unfold locLookup
      rw [hn]
      cases labelPositions rows r with
      | nil => rfl
      | cons i is => cases is <;> rfl
  · intro hr hc
    have hr1 : (labelPositions rows r).length = 1 := by rw [labelPositions_length, hr]
    have hc1 : (labelPositions cols c).length = 1 := by rw [labelPositions_length, hc]
    obtain ⟨i, hi⟩ := List.length_eq_one.mp hr1
    obtain ⟨j, hj⟩ := List.length_eq_one.mp hc1
    refine ⟨i, j, hi, hj, ?_⟩
    unfold locLookup
    rw [hi, hj]

/-! ### Frame effect of the pipeline -/

/-- A successful chromosome matrix has entries in `[0, 1]` whenever the
catalog's counts are nonnegative. -/
theorem chromMatrix_bounds (table : List PairRow) (chiapet : List LoopRec) (c : String)
    (M : ℕ → ℕ → ℚ) (hc : ∀ l ∈ chiapet, 0 ≤ l.count)
    (h : chromPinloopMatrix table chiapet c = Except.ok M) :
    ∀ g e, 0 ≤ M g e ∧ M g e ≤ 1 := by
  unfold chromPinloopMatrix at h
  apply dense_ok_bounds _ _ _ _ _ h
  intro a ha
  unfold alloc_pinloop at ha
  obtain ⟨l, hl, rfl⟩ := List.mem_map.mp ha
  show 0 ≤ l.count
  exact hc l (List.mem_of_mem_filter (List.mem_of_mem_filter hl))

/-- A successful row annotation keeps the row and cannot turn a nonnegative
`Pinloop` value negative when the matrix is entrywise nonnegative. -/
theorem annotateRow_spec (table : List PairRow) (M : ℕ → ℕ → ℚ) (c : String)
    (p q : PairRow × ℚ) (hM : ∀ g e, 0 ≤ M g e)
    (h : annotateRow table M c p = Except.ok q) :
    q.1 = p.1 ∧ (0 ≤ p.2 → 0 ≤ q.2) := by
  unfold annotateRow at h
  by_cases hch : p.1.elementChr = c
  · rw [if_pos hch] at h
    cases hL : locLookup ((elementsOnChr table c).map (·.elementName))
        ((genesOnChr table c).map (·.geneEnsemblID)) (fun i j => M j i)
        p.1.elementName p.1.geneEnsemblID with
    | error e => rw [hL] at h; cases h
    | ok v =>
      rw [hL] at h
      simp only [Except.map] at h
      injection h with h
      subst h
      refine ⟨rfl, fun _ => ?_⟩
      obtain ⟨i, j, hi, hj, hv⟩ := locLookup_ok hL
      rw [hv]
      exact hM j i
  · rw [if_neg hch] at h
    injection h with h
    subst h
    exact ⟨rfl, fun hp => hp⟩

/-- A successful `exceptMap` of row annotations preserves the row column and
the nonnegativity of the `Pinloop` column. -/
theorem exceptMap_rows (f : PairRow × ℚ → Except String (PairRow × ℚ))
    (hf : ∀ p q, f p = Except.ok q → q.1 = p.1 ∧ (0 ≤ p.2 → 0 ≤ q.2)) :
    ∀ st out, exceptMap f st = Except.ok out → (∀ p ∈ st, 0 ≤ p.2) →
      out.map Prod.fst = st.map Prod.fst ∧ ∀ q ∈ out, 0 ≤ q.2 := by
  intro st
  induction st with
  | nil =>
    intro out h hst
    unfold exceptMap at h
    injection h with h
    subst h
    exact ⟨rfl, fun q hq => absurd hq (List.not_mem_nil q)⟩
  | cons p t ih =>
    intro out h hst
    unfold exceptMap at h
    cases hf1 : f p with
    | error e => rw [hf1] at h; cases h
    | ok q =>
      rw [hf1] at h
      cases hm : exceptMap f t with
      | error e => rw [hm] at h; cases h
      | ok t' =>
        rw [hm] at h
        simp only [Except.map] at h
        injection h with h
        subst h
        obtain ⟨hq1, hq2⟩ := hf p q hf1
        obtain ⟨ih1, ih2⟩ := ih t' hm (fun x hx => hst x (List.mem_cons_of_mem p hx))
        constructor
        · simp [ih1, hq1]
        · intro x hx
          rcases List.mem_cons.mp hx with rfl | hx
          · exact hq2 (hst p (List.mem_cons_self p t))
          · exact ih2 x hx

/-- One chromosome step of the module loop preserves the rows and the
nonnegativity of the `Pinloop` column. -/
theorem processChrom_spec (table : List PairRow) (chiapet : List LoopRec) (c : String)
    (st st' : List (PairRow × ℚ)) (hc : ∀ l ∈ chiapet, 0 ≤ l.count)
    (h : processChrom table chiapet c st = Except.ok st') (hst : ∀ p ∈ st, 0 ≤ p.2) :
    st'.map Prod.fst = st.map Prod.fst ∧ ∀ q ∈ st', 0 ≤ q.2 := by
  unfold processChrom at h
  cases hM : chromPinloopMatrix table chiapet c with
  | error e => rw [hM] at h; cases h
  | ok M =>
    rw [hM] at h
    refine exceptMap_rows _ ?_ st st' h hst
    intro p q hpq
    exact annotateRow_spec table M c p q
      (fun g e => (chromMatrix_bounds table chiapet c M hc hM g e).1) hpq

/-- The chromosome loop preserves the rows and the nonnegativity invariant. -/
theorem foldChroms_spec (table : List PairRow) (chiapet : List LoopRec)
    (hc : ∀ l ∈ chiapet, 0 ≤ l.count) :
    ∀ cs st out, foldChroms table chiapet cs st = Except.ok out →
      (∀ p ∈ st, 0 ≤ p.2) →
      out.map Prod.fst = st.map Prod.fst ∧ ∀ q ∈ out, 0 ≤ q.2 := by
  intro cs
  induction cs with
  | nil =>
    intro st out h hst
    unfold foldChroms at h
    injection h with h
    subst h
    exact ⟨rfl, hst⟩
  | cons c cs ih =>
    intro st out h hst
    unfold foldChroms at h
    cases hp : processChrom table chiapet c st with
    | error e => rw [hp] at h; cases h
    | ok st' =>
      rw [hp] at h
      obtain ⟨h1, h2⟩ := processChrom_spec table chiapet c st st' hc hp hst
      obtain ⟨h3, h4⟩ := ih st' out h h2
      exact ⟨h3.trans h1, h4⟩

/-- C9: a successful pipeline run returns exactly the input rows, in order,
with every original column untouched, plus one `Pinloop` value per row that
is nonnegative whenever the loop catalog's counts are nonnegative. -/
theorem C9_frame_and_nonneg (table : List PairRow) (chiapet : List LoopRec)
    (out : List (PairRow × ℚ)) (hc : ∀ l ∈ chiapet, 0 ≤ l.count)
    (h : runPipeline table chiapet = Except.ok out) :
    out.map Prod.fst = table ∧ ∀ q ∈ out, 0 ≤ q.2 := by
  unfold runPipeline at h
  obtain ⟨h1, h2⟩ := foldChroms_spec table chiapet hc _ _ out h
    (by
      intro p hp
      obtain ⟨r, hr, rfl⟩ := List.mem_map.mp hp
      exact le_refl 0)
  refine ⟨?_, h2⟩
  rw [h1, List.map_map]
  show List.map (fun r => r) table = table
  exact List.map_id table

/-! ### The empty-axis guard and its downstream failure -/

section ConcreteEvaluations

attribute [local semireducible] Rat.add Rat.sub Rat.mul Rat.inv

/-- Counterexample to C1: on the spec's own scenario the element-axis bins
are `atac_start = 1` and `atac_end = 2` (not 0 and 3: element center 50 is
below anchor 80), so the stated conjunction — bins `(0,3,0,3)` and every
normalized cell `4/12` — is false; cell `(0,0)` is in fact `0`. -/
theorem C1_scenario_cex :
    ¬ (C1alloc.map (fun a => (a.rnaseq_start, a.rnaseq_end, a.atac_start, a.atac_end)) =
        [(0, 3, 0, 3)] ∧
      (p_inloop_dense (List.range 3) (List.range 3) C1alloc).map (fun M => M 0 0) =
        Except.ok (4 / 12)) := by
  intro hcl
  have h1 : C1alloc.map (fun a => (a.rnaseq_start, a.rnaseq_end, a.atac_start, a.atac_end)) =
      [(0, 3, 1, 2)] := rfl
  rw [h1] at hcl
  exact absurd hcl.1 (by decide)

/-- C1 (amended): the scenario's loop bins to `rna = [0, 3)` and
`atac = [1, 2)`; each gene total becomes 4 (one `+count` per loop, not per
cell), cells `(g, 1)` accumulate 4, and normalization yields 1 in column 1
and 0 elsewhere. -/
theorem C1_scenario_amended :
    C1alloc.map (fun a => (a.rnaseq_start, a.rnaseq_end, a.atac_start, a.atac_end)) =
      [(0, 3, 1, 2)] ∧
    (denseTP (List.range 3) (List.range 3) C1alloc).map
      (fun TP => (TP.1 0, TP.1 1, TP.1 2)) = Except.ok (4, 4, 4) ∧
    (p_inloop_dense (List.range 3) (List.range 3) C1alloc).map
      (fun M => ((M 0 0, M 0 1, M 0 2), (M 1 0, M 1 1, M 1 2), (M 2 0, M 2 1, M 2 2))) =
      Except.ok ((0, 1, 0), (0, 1, 0), (0, 1, 0)) :=
  ⟨rfl, rfl, rfl⟩

/-- Witness for C3: inserting a 2 Mb loop changes nothing on a concrete run. -/
theorem C3_cutoff_excludes_witness :
    (1000000 : ℚ) ≤ W3big.loop_length ∧
    runPipeline W3table (W3big :: []) = runPipeline W3table [] :=
  ⟨by decide, C3_cutoff_excludes W3table [] [] W3big (by decide)⟩

/-- Witness for C4 on the empty accumulator: the builder returns the
normalized matrix and a zero-total row normalizes to zero. -/
theorem C4_zero_division_guard_witness :
    p_inloop_dense [0] [0] [] = Except.ok (normalizeRows W4T W4P) ∧
    normalizeRows W4T W4P 0 0 = 0 :=
  ⟨(C4_zero_division_guard [0] [0] [] W4T W4P rfl 0).1,
   (C4_zero_division_guard [0] [0] [] W4T W4P rfl 0).2.2 rfl 0⟩

/-- Counterexample to C5: the reversed loop (`center1 = 200 > 50 = center2`)
contributes nothing — cell `(0,0)` stays 0 — while the same loop with swapped
anchors drives that cell to 1, so the two do not produce the same updates. -/
theorem C5_unordered_anchor_cex :
    (p_inloop_dense (List.range 1) (List.range 1)
      (alloc_pinloop C5genes C5elems [C5loopRev])).map (fun M => M 0 0) = Except.ok 0 ∧
    (p_inloop_dense (List.range 1) (List.range 1)
      (alloc_pinloop C5genes C5elems [C5loopFwd])).map (fun M => M 0 0) = Except.ok 1 ∧
    (0 : ℚ) ≠ 1 :=
  ⟨rfl, rfl, by decide⟩

/-- Witness for the amended C5 on a concrete reversed loop. -/
theorem C5_reversed_anchor_amended_witness :
    (C5genes.map (·.geneTSS)).Sorted (· ≤ ·) ∧
    p_inloop_dense (List.range C5genes.length) (List.range C5elems.length)
      (alloc_pinloop C5genes C5elems (C5loopRev :: [])) =
    p_inloop_dense (List.range C5genes.length) (List.range C5elems.length)
      (alloc_pinloop C5genes C5elems []) :=
  ⟨by decide, C5_reversed_anchor_amended C5genes C5elems [] C5loopRev (by decide) (by decide)⟩

/-- C6: the derived per-chromosome gene array keeps the pair table's
first-occurrence order — here `[500, 100]`, not ascending — no sort and no
fail-fast happens, and the lower-bound search issued against the unsorted
array breaks its contract: it returns 2 for query 200 although index 0
already holds `500 ≥ 200`. -/
theorem C6_unsorted_gene_array :
    (genesOnChr C6table ("chr1")).map (·.geneTSS) = [500, 100] ∧
    ¬ ((genesOnChr C6table ("chr1")).map (·.geneTSS)).Sorted (· ≤ ·) ∧
    searchsorted ((genesOnChr C6table ("chr1")).map (·.geneTSS)) 200 = 2 ∧
    (200 : ℚ) ≤ 500 :=
  ⟨rfl, by decide, rfl, by decide⟩

/-- Counterexample to C7: with a duplicated element label — possible because
de-duplication is per full (name, start, end) triple — both identifiers are
present in the index, yet `lookup.loc[r, c]` selects two occurrences (a
Series, not a scalar) and the assignment into the float column fails instead
of assigning the matrix value without error. -/
theorem C7_duplicate_label_cex :
    ("elemA" ∈ ["elemA", "elemA"]) ∧ ("ENSGX" ∈ ["ENSGX"]) ∧
    locLookup ["elemA", "elemA"] ["ENSGX"] C7data ("elemA") ("ENSGX") =
      Except.error ("setting an array element with a sequence") :=
  ⟨by decide, by decide, rfl⟩

/-- Witness for the amended C7: a missing element label errors, uniquely
present labels succeed with the matrix value. -/
theorem C7_missing_locus_lookup_witness :
    locLookup ["elemA"] ["ENSGX"] C7data ("nope") ("ENSGX") = Except.error ("KeyError") ∧
    locLookup ["elemA"] ["ENSGX"] C7data ("elemA") ("ENSGX") = Except.ok (C7data 0 0) := by
  constructor
  · exact (C7_missing_locus_lookup ["elemA"] ["ENSGX"] C7data ("nope") ("ENSGX")).1
      (Or.inl (by decide))
  · obtain ⟨i, j, hi, hj, hv⟩ :=
      (C7_missing_locus_lookup ["elemA"] ["ENSGX"] C7data ("elemA") ("ENSGX")).2
        (by decide) (by decide)
    have hi0 : labelPositions ["elemA"] ("elemA") = [0] := rfl
    have hj0 : labelPositions ["ENSGX"] ("ENSGX") = [0] := rfl
    rw [hi0] at hi
    rw [hj0] at hj
    injection hi with hi hi2
    injection hj with hj hj2
    subst hi
    subst hj
    exact hv

/-- Witness for C9 on a one-row table and a one-loop catalog. -/
theorem C9_frame_and_nonneg_witness :
    (runPinOut W9table W9chia).map Prod.fst = W9table ∧ (0 : ℚ) ≤ (W9row, (0 : ℚ)).2 :=
  ⟨(C9_frame_and_nonneg W9table W9chia (runPinOut W9table W9chia) (by decide) rfl).1,
   (C9_frame_and_nonneg W9table W9chia (runPinOut W9table W9chia) (by decide) rfl).2
     (W9row, 0) (by decide)⟩

/-- Witness for C10: the single fully-covered cell of a 1 × 1 run is `≤ 1`. -/
theorem C10_probability_le_one_witness :
    (0 : ℚ) ≤ W10loop.count ∧ W10M 0 0 ≤ 1 :=
  ⟨by decide, C10_probability_le_one [0] [0] [W10loop] W10M (by decide) rfl 0 0⟩

end ConcreteEvaluations

end Pinloop
